import Mathlib

/-!
Shallow embedding of the structured-logging store in `src/server.py`.

The store is a directory of partition files (`logs/<date>.jsonl`).  We model the
directory as a `Store`: a list of `Partition`s, each carrying its file name, its
list of physical lines and a flag saying whether opening the file for reading
succeeds (an unreadable file raises `IOError`/`OSError` in the source).

A physical line of a partition file is abstracted by `Line`:
  * `Line.blank raw`      — `line.strip()` is empty (`if not line: continue`);
  * `Line.malformed raw`  — non-blank and `json.loads(line)` raises
    `json.JSONDecodeError`;
  * `Line.valid entry`    — `json.loads(line)` succeeds and yields `entry`.
This bakes in exactly the two facts the source relies on about the JSON codec:
`json.dumps` of a record produces a single line that `json.loads` parses back to
the same value, and `json.dumps` never emits a raw newline.  Parsed JSON values
are modelled by `Json`; a Python value that `json.dumps` cannot serialize
(raising `TypeError`) is modelled by `PyVal.unserializable`.
-/

inductive Json where
  | jnull
  | jbool (b : Bool)
  | jnum (n : Int)
  | jstr (s : String)
  | jarr (elems : List Json)
  | jobj (fields : List (String × Json))
deriving Repr

/-- A Python value supplied as a `context` entry: either a JSON-serializable
value, or a value (a set, a custom object, ...) on which `json.dumps` raises
`TypeError`. -/
inductive PyVal where
  | json (j : Json)
  | unserializable (tag : String)
deriving Repr

/-- One physical line of a partition file, abstracted by the outcome of
`line.strip()` emptiness and `json.loads` (see the header comment). -/
inductive Line where
  | blank (raw : String)
  | malformed (raw : String)
  | valid (entry : Json)
deriving Repr

/-- One partition file of the `logs/` directory: its file name (relative to the
directory), its physical lines, and whether `open(log_file, "r")` succeeds. -/
structure Partition where
  name : String
  lines : List Line
  readable : Bool
deriving Repr

/-- The `logs/` directory. -/
structure Store where
  partitions : List Partition
deriving Repr

/-- `dict.get(key)`: the value at `key`, or `None` (here: `none`). -/
def dictGet (fields : List (String × Json)) (key : String) : Option Json :=
  (fields.find? (fun kv => kv.1 == key)).map (fun kv => kv.2)

/-- `entry.get("level") != level_filter` for a truthy string `lf`.
`entry.get` raises `AttributeError` when the parsed JSON value is not an
object (`.error ()`); otherwise the Python `!=` comparison of the field value
(a JSON value or `None`) with the string `lf` is `false` exactly when the field
is the string `lf`. -/
def entryLevelNe (entry : Json) (lf : String) : Except Unit Bool :=
  match entry with
  | .jobj fields =>
    match dictGet fields "level" with
    | some (.jstr s) => .ok (decide (s ≠ lf))
    | _ => .ok true
  | _ => .error ()

/-- The guard `if level_filter and entry.get("level") != level_filter` of
`read_recent_logs`: `.ok true` means the line is skipped, `.error ()` that an
`AttributeError` escapes.  Short-circuit: a falsy `level_filter` never calls
`entry.get`. -/
def filterSkip (level_filter : Option String) (entry : Json) : Except Unit Bool :=
  match level_filter with
  | some lf => if lf ≠ "" then entryLevelNe entry lf else .ok false
  | none => .ok false

/-- Outcome of the inner `for line in reversed(lines)` loop of
`read_recent_logs`: an early `return all_entries` once `count` is reached,
normal loop exit with the accumulated entries, or an uncaught exception. -/
inductive ScanOutcome where
  | returned (entries : List Json)
  | finished (entries : List Json)
  | raised
deriving Repr

/-- The inner loop of `read_recent_logs` (src/server.py lines 81-101) over the
already-reversed line list, carrying the accumulator `all_entries`. -/
def scanLines (count : Int) (level_filter : Option String) :
    List Line → List Json → ScanOutcome
  | [], acc => .finished acc
  | .blank _ :: rest, acc => scanLines count level_filter rest acc
  | .malformed _ :: rest, acc => scanLines count level_filter rest acc
  | .valid entry :: rest, acc =>
    match filterSkip level_filter entry with
    | .error _ => .raised
    | .ok true => scanLines count level_filter rest acc
    | .ok false =>
      if count ≤ ((acc ++ [entry]).length : Int) then .returned (acc ++ [entry])
      else scanLines count level_filter rest (acc ++ [entry])

/-- Result of `read_recent_logs`: the returned entry list, or an uncaught
exception (only the `AttributeError` of `entry.get` on a non-object can
escape; `JSONDecodeError`, `IOError` and `OSError` are caught). -/
inductive QueryResult where
  | ok (entries : List Json)
  | raised
deriving Repr

/-- The outer `for log_file in log_files` loop of `read_recent_logs`
(src/server.py lines 75-107): an unreadable file is skipped, an early return
from the inner loop returns from the whole function, and exhausting all files
returns the accumulator. -/
def scanPartitions (count : Int) (level_filter : Option String) :
    List Partition → List Json → QueryResult
  | [], acc => .ok acc
  | p :: rest, acc =>
    if p.readable then
      match scanLines count level_filter p.lines.reverse acc with
      | .returned entries => .ok entries
      | .finished acc2 => scanPartitions count level_filter rest acc2
      | .raised => .raised
    else
      scanPartitions count level_filter rest acc

/-- `LOGS_DIR.glob("*.jsonl")`: the files of the directory whose name ends in
`.jsonl`.  The suffix test is expressed on the character list of the name. -/
def hasJsonlExt (s : String) : Bool :=
  decide (s.data.reverse.take 6 = (".jsonl" : String).data.reverse)

def globJsonl (ps : List Partition) : List Partition :=
  ps.filter (fun p => hasJsonlExt p.name)

/-- Insert a partition into a name-descending list, keeping it sorted;
`sortByNameDesc` below models `sorted(LOGS_DIR.glob("*.jsonl"), reverse=True)`. -/
def insertDesc (p : Partition) : List Partition → List Partition
  | [] => [p]
  | q :: qs => if q.name < p.name then p :: q :: qs else q :: insertDesc p qs

def sortByNameDesc (ps : List Partition) : List Partition :=
  ps.foldr insertDesc []

/-- `read_recent_logs(count, level_filter)` (src/server.py lines 68-107). -/
def read_recent_logs (store : Store) (count : Int)
    (level_filter : Option String) : QueryResult :=
  scanPartitions count level_filter (sortByNameDesc (globJsonl store.partitions)) []

/-- `get_daily_log_file()` (src/server.py lines 48-51): today's date is an
input (the clock is ambient); the path is relative to `LOGS_DIR`. -/
def get_daily_log_file (today : String) : String :=
  today ++ ".jsonl"

/-- `json.dumps` on the `context` dict: succeeds iff every value is
JSON-serializable, in which case the serialized-then-reparsed dict holds the
same JSON values. -/
def serializeCtx : List (String × PyVal) → Option (List (String × Json))
  | [] => some []
  | (k, .json j) :: rest => (serializeCtx rest).map (fun r => (k, j) :: r)
  | (_, .unserializable _) :: _ => none

/-- The `log_entry` dict built by `write_log_entry` (src/server.py lines
56-61), as it reads back through `json.loads`. -/
def mkLogEntry (now_iso level message : String)
    (ctx : List (String × Json)) : Json :=
  .jobj [("timestamp", .jstr (now_iso ++ "Z")),
         ("level", .jstr level),
         ("message", .jstr message),
         ("context", .jobj ctx)]

/-- `open(log_file, "a")`: creates the (empty, readable) file if absent,
otherwise touches nothing. -/
def openAppend (store : Store) (name : String) : Store :=
  if store.partitions.any (fun p => p.name == name) then store
  else ⟨store.partitions ++ [⟨name, [], true⟩]⟩

/-- `f.write(line)` on the file opened in append mode: adds one physical line
at the end of that file, leaving every other file untouched. -/
def appendLine (store : Store) (name : String) (l : Line) : Store :=
  ⟨store.partitions.map
    (fun p => if p.name == name then ⟨p.name, p.lines ++ [l], p.readable⟩ else p)⟩

/-- Result of `write_log_entry`: the directory afterwards, and whether the call
succeeded (`ok = false`: `json.dumps` raised `TypeError`, after `open` but
before any byte was written). -/
structure WriteResult where
  store : Store
  ok : Bool
deriving Repr

/-- `write_log_entry(level, message, context)` (src/server.py lines 54-65).
`today` and `now_iso` are the ambient clock readings of the two `datetime.now()`
calls.  `context or {}` normalizes `None` (and the falsy `{}`) to `{}`.  The
file is opened in append mode first; `json.dumps(log_entry)` is evaluated
inside the `with` block, so a `TypeError` leaves the opened file unwritten. -/
def write_log_entry (store : Store) (today now_iso : String)
    (level message : String) (context : Option (List (String × PyVal))) :
    WriteResult :=
  let ctx := context.getD []
  let name := get_daily_log_file today
  let store1 := openAppend store name
  match serializeCtx ctx with
  | none => ⟨store1, false⟩
  | some ctxJson =>
    ⟨appendLine store1 name (.valid (mkLogEntry now_iso level message ctxJson)), true⟩

/-! ### Derived reference notions used to state the claims -/

/-- The entries of a (reversed) line list that the scan loop would emit under
`level_filter`: valid lines whose filter guard evaluates to `.ok false`. -/
def keptEntries (level_filter : Option String) (ls : List Line) : List Json :=
  ls.filterMap (fun l =>
    match l with
    | .valid j =>
      match filterSkip level_filter j with
      | .ok false => some j
      | _ => none
    | _ => none)

/-- The entries one partition contributes to a scan: none when unreadable,
otherwise its kept entries in reverse physical order. -/
def partKept (level_filter : Option String) (p : Partition) : List Json :=
  if p.readable then keptEntries level_filter p.lines.reverse else []

/-- All entries the query would emit, in global scan order: partitions in
descending name order, unreadable ones contributing nothing, each readable
partition read in reverse physical order. -/
def globalKept (store : Store) (level_filter : Option String) : List Json :=
  ((sortByNameDesc (globJsonl store.partitions)).map (partKept level_filter)).flatten

/-- The number of records at which the scan stops: `count`, except that the
`len(all_entries) >= count` check only runs after an append, so any
`count ≤ 1` behaves as `1`. -/
def effCount (count : Int) : Nat :=
  if count ≤ 1 then 1 else count.toNat

/-- The lines of the partition file called `name` (an absent file reads as an
empty one). -/
def contentOf (store : Store) (name : String) : List Line :=
  ((store.partitions.find? (fun p => p.name == name)).map (fun p => p.lines)).getD []

/-! ### Scan characterization: the query result is a take of the global kept
sequence -/

lemma effCount_pos (count : Int) : 1 ≤ effCount count := by
  unfold effCount; split <;> omega

lemma count_le_iff (count : Int) (n : Nat) (hn : 1 ≤ n) :
    (count ≤ (n : Int)) ↔ effCount count ≤ n := by
  unfold effCount; split <;> omega

lemma keptEntries_valid_true (lf : Option String) (entry : Json)
    (rest : List Line) (hfs : filterSkip lf entry = .ok true) :
    keptEntries lf (.valid entry :: rest) = keptEntries lf rest := by
  simp [keptEntries, List.filterMap_cons, hfs]

lemma keptEntries_valid_false (lf : Option String) (entry : Json)
    (rest : List Line) (hfs : filterSkip lf entry = .ok false) :
    keptEntries lf (.valid entry :: rest) = entry :: keptEntries lf rest := by
  simp [keptEntries, List.filterMap_cons, hfs]

lemma keptEntries_valid_err (lf : Option String) (entry : Json)
    (rest : List Line) (e : Unit) (hfs : filterSkip lf entry = .error e) :
    keptEntries lf (.valid entry :: rest) = keptEntries lf rest := by
  simp [keptEntries, List.filterMap_cons, hfs]

lemma scanLines_spec (count : Int) (lf : Option String) (ls : List Line) :
    ∀ acc, acc.length < effCount count →
      (∀ es, scanLines count lf ls acc = .returned es →
        es.length = effCount count ∧
        es = acc ++ (keptEntries lf ls).take (effCount count - acc.length)) ∧
      (∀ es, scanLines count lf ls acc = .finished es →
        es.length < effCount count ∧ es = acc ++ keptEntries lf ls) := by
  induction ls with
  | nil =>
    intro acc hacc
    refine ⟨fun es hes => by simp [scanLines] at hes, fun es hes => ?_⟩
    simp only [scanLines, ScanOutcome.finished.injEq] at hes
    subst hes
    simp [keptEntries, hacc]
  | cons l rest ih =>
    intro acc hacc
    cases l with
    | blank raw =>
      simpa only [scanLines, keptEntries, List.filterMap_cons] using ih acc hacc
    | malformed raw =>
      simpa only [scanLines, keptEntries, List.filterMap_cons] using ih acc hacc
    | valid entry =>
      cases hfs : filterSkip lf entry with
      | error e =>
        refine ⟨fun es hes => ?_, fun es hes => ?_⟩ <;>
          simp [scanLines, hfs] at hes
      | ok b =>
        cases b with
        | true =>
          have h2 := ih acc hacc
          rw [keptEntries_valid_true lf entry rest hfs]
          refine ⟨fun es hes => ?_, fun es hes => ?_⟩
          · simp only [scanLines, hfs] at hes
            exact h2.1 es hes
          · simp only [scanLines, hfs] at hes
            exact h2.2 es hes
        | false =>
          rw [keptEntries_valid_false lf entry rest hfs]
          have hlen : (acc ++ [entry]).length = acc.length + 1 := by simp
          by_cases hc : count ≤ (((acc ++ [entry]).length : Nat) : Int)
          · refine ⟨fun es hes => ?_, fun es hes => ?_⟩
            · simp only [scanLines, hfs, if_pos hc, ScanOutcome.returned.injEq] at hes
              subst hes
              have heff : effCount count ≤ acc.length + 1 := by
                rw [← count_le_iff count (acc.length + 1) (by omega)]
                rw [hlen] at hc
                exact_mod_cast hc
              have hone : effCount count - acc.length = 1 := by omega
              refine ⟨by omega, ?_⟩
              rw [hone]
              simp
            · simp only [scanLines, hfs, if_pos hc] at hes
              exact ScanOutcome.noConfusion hes
          · have hlt : (acc ++ [entry]).length < effCount count := by
              rcases Nat.lt_or_ge ((acc ++ [entry]).length) (effCount count) with h | h
              · exact h
              · exact absurd ((count_le_iff count _ (by omega)).mpr h) hc
            refine ⟨fun es hes => ?_, fun es hes => ?_⟩
            · simp only [scanLines, hfs, if_neg hc] at hes
              obtain ⟨hlen2, hform⟩ := (ih (acc ++ [entry]) hlt).1 es hes
              refine ⟨hlen2, ?_⟩
              have hstep : effCount count - acc.length =
                  (effCount count - (acc ++ [entry]).length) + 1 := by
                omega
              rw [hstep, List.take_succ_cons, hform]
              simp
            · simp only [scanLines, hfs, if_neg hc] at hes
              obtain ⟨hlen2, hform⟩ := (ih (acc ++ [entry]) hlt).2 es hes
              refine ⟨hlen2, ?_⟩
              rw [hform]
              simp

lemma scanPartitions_spec (count : Int) (lf : Option String) (ps : List Partition) :
    ∀ acc, acc.length < effCount count →
      ∀ es, scanPartitions count lf ps acc = .ok es →
        es = acc ++ ((ps.map (partKept lf)).flatten).take (effCount count - acc.length) := by
  induction ps with
  | nil =>
    intro acc hacc es hes
    simp only [scanPartitions, QueryResult.ok.injEq] at hes
    subst hes
    simp
  | cons p rest ih =>
    intro acc hacc es hes
    by_cases hr : p.readable = true
    · rw [scanPartitions, if_pos hr] at hes
      cases hsl : scanLines count lf p.lines.reverse acc with
      | returned entries =>
        rw [hsl] at hes
        obtain ⟨hlen, hform⟩ := (scanLines_spec count lf p.lines.reverse acc hacc).1 entries hsl
        have hes2 : entries = es := by simpa using hes
        subst hes2
        have hK : effCount count - acc.length ≤ (keptEntries lf p.lines.reverse).length := by
          have h1 : entries.length = acc.length +
              ((keptEntries lf p.lines.reverse).take (effCount count - acc.length)).length := by
            rw [hform]; simp
          rw [List.length_take] at h1
          omega
        rw [List.map_cons, List.flatten_cons, partKept, if_pos hr,
          List.take_append_of_le_length hK]
        exact hform
      | finished acc2 =>
        rw [hsl] at hes
        obtain ⟨hlen2, hform⟩ := (scanLines_spec count lf p.lines.reverse acc hacc).2 acc2 hsl
        have := ih acc2 (by omega) es hes
        rw [List.map_cons, List.flatten_cons, partKept, if_pos hr,
          List.take_append_eq_append_take]
        have hKlen : (keptEntries lf p.lines.reverse).length ≤ effCount count - acc.length := by
          have : acc2.length = acc.length + (keptEntries lf p.lines.reverse).length := by
            rw [hform]; simp
          omega
        rw [List.take_of_length_le hKlen]
        have harith : effCount count - acc.length - (keptEntries lf p.lines.reverse).length =
            effCount count - acc2.length := by
          have : acc2.length = acc.length + (keptEntries lf p.lines.reverse).length := by
            rw [hform]; simp
          omega
        rw [harith, this, hform]
        simp
      | raised => rw [hsl] at hes; cases hes
    · rw [scanPartitions, if_neg hr] at hes
      have := ih acc hacc es hes
      rw [List.map_cons, List.flatten_cons, partKept, if_neg hr]
      simpa using this

lemma read_recent_logs_take (store : Store) (count : Int) (lf : Option String)
    (es : List Json) (h : read_recent_logs store count lf = .ok es) :
    es = (globalKept store lf).take (effCount count) := by
  have h0 : ([] : List Json).length < effCount count := by
    have := effCount_pos count
    simpa using this
  have := scanPartitions_spec count lf (sortByNameDesc (globJsonl store.partitions)) [] h0 es h
  simpa [globalKept] using this

/-! ### A query with no level filter never raises -/

lemma scanLines_none_ne (count : Int) (ls : List Line) :
    ∀ acc, scanLines count none ls acc ≠ .raised := by
  induction ls with
  | nil => intro acc h; simp [scanLines] at h
  | cons l rest ih =>
    intro acc
    cases l with
    | blank raw => simpa only [scanLines] using ih acc
    | malformed raw => simpa only [scanLines] using ih acc
    | valid entry =>
      simp only [scanLines, filterSkip]
      split
      · intro h; simp at h
      · exact ih _

lemma scanPartitions_none_ok (count : Int) (ps : List Partition) :
    ∀ acc, ∃ es, scanPartitions count none ps acc = .ok es := by
  induction ps with
  | nil => intro acc; exact ⟨acc, rfl⟩
  | cons p rest ih =>
    intro acc
    by_cases hr : p.readable = true
    · cases hsl : scanLines count none p.lines.reverse acc with
      | returned entries => exact ⟨entries, by rw [scanPartitions, if_pos hr, hsl]⟩
      | finished acc2 =>
        obtain ⟨es, hes⟩ := ih acc2
        exact ⟨es, by rw [scanPartitions, if_pos hr, hsl]; exact hes⟩
      | raised => exact absurd hsl (scanLines_none_ne count _ acc)
    · obtain ⟨es, hes⟩ := ih acc
      exact ⟨es, by rw [scanPartitions, if_neg hr]; exact hes⟩

lemma read_none_ok (store : Store) (count : Int) :
    ∃ es, read_recent_logs store count none = .ok es :=
  scanPartitions_none_ok count _ []

/-! ### Sorting lemmas -/

lemma mem_insertDesc (p x : Partition) (l : List Partition) :
    x ∈ insertDesc p l ↔ x = p ∨ x ∈ l := by
  induction l with
  | nil => simp [insertDesc]
  | cons q qs ih =>
    rw [insertDesc]
    split
    · simp
    · simp only [List.mem_cons, ih]
      tauto

lemma mem_sortByNameDesc (x : Partition) (ps : List Partition) :
    x ∈ sortByNameDesc ps ↔ x ∈ ps := by
  induction ps with
  | nil => simp [sortByNameDesc]
  | cons p qs ih =>
    show x ∈ insertDesc p (sortByNameDesc qs) ↔ _
    rw [mem_insertDesc, ih]
    simp

lemma insertDesc_map (f : Partition → Partition) (hf : ∀ p, (f p).name = p.name)
    (p : Partition) (qs : List Partition) :
    insertDesc (f p) (qs.map f) = (insertDesc p qs).map f := by
  induction qs with
  | nil => rfl
  | cons q qs ih =>
    simp only [List.map_cons, insertDesc, hf]
    split
    · simp
    · simp [ih]

lemma sortByNameDesc_map (f : Partition → Partition) (hf : ∀ p, (f p).name = p.name)
    (ps : List Partition) :
    sortByNameDesc (ps.map f) = (sortByNameDesc ps).map f := by
  induction ps with
  | nil => rfl
  | cons p qs ih =>
    show insertDesc (f p) (sortByNameDesc (qs.map f)) = _
    rw [ih, insertDesc_map f hf]
    rfl

/-- Name-descending sortedness, as produced by `sortByNameDesc`. -/
def NameSortedDesc (l : List Partition) : Prop :=
  l.Pairwise (fun a b => ¬ a.name < b.name)

lemma insertDesc_sorted (p : Partition) (l : List Partition)
    (h : NameSortedDesc l) : NameSortedDesc (insertDesc p l) := by
  induction l with
  | nil => simp [insertDesc, NameSortedDesc]
  | cons q qs ih =>
    rw [NameSortedDesc, List.pairwise_cons] at h
    rw [insertDesc]
    split
    · rename_i hlt
      rw [NameSortedDesc, List.pairwise_cons]
      constructor
      · intro x hx
        rw [List.mem_cons] at hx
        rcases hx with hx | hx
        · subst hx
          exact lt_asymm hlt
        · intro hpx
          have hxq : x.name ≤ q.name := le_of_not_lt (h.1 x hx)
          exact absurd (lt_trans hpx (lt_of_le_of_lt hxq hlt)) (lt_irrefl _)
      · exact List.pairwise_cons.mpr h
    · rename_i hge
      rw [NameSortedDesc, List.pairwise_cons]
      constructor
      · intro x hx
        rw [mem_insertDesc] at hx
        rcases hx with hx | hx
        · subst hx; exact hge
        · exact h.1 x hx
      · exact ih h.2

lemma sortByNameDesc_sorted (ps : List Partition) :
    NameSortedDesc (sortByNameDesc ps) := by
  induction ps with
  | nil => simp [sortByNameDesc, NameSortedDesc]
  | cons p qs ih => exact insertDesc_sorted p _ ih

lemma insertDesc_front (p : Partition) (l : List Partition)
    (h : ∀ x ∈ l, x.name < p.name) : insertDesc p l = p :: l := by
  cases l with
  | nil => rfl
  | cons q qs => rw [insertDesc, if_pos (h q (by simp))]

lemma filter_insertDesc (pred : Partition → Bool) (p : Partition) :
    ∀ l, NameSortedDesc l →
      (insertDesc p l).filter pred =
        if pred p then insertDesc p (l.filter pred) else l.filter pred := by
  intro l
  induction l with
  | nil =>
    intro _
    by_cases hp : pred p = true <;> simp [insertDesc, List.filter_cons, hp]
  | cons q qs ih =>
    intro hsort
    rw [NameSortedDesc, List.pairwise_cons] at hsort
    rw [insertDesc]
    split
    · rename_i hlt
      by_cases hp : pred p = true
      · rw [if_pos hp, List.filter_cons_of_pos hp]
        by_cases hq : pred q = true
        · rw [List.filter_cons_of_pos hq, insertDesc, if_pos hlt]
        · rw [List.filter_cons_of_neg hq]
          have hfront : insertDesc p (qs.filter pred) = p :: qs.filter pred := by
            apply insertDesc_front
            intro x hx
            rw [List.mem_filter] at hx
            exact lt_of_le_of_lt (le_of_not_lt (hsort.1 x hx.1)) hlt
          rw [hfront]
      · rw [if_neg hp, List.filter_cons_of_neg hp]
    · rename_i hge
      by_cases hq : pred q = true
      · rw [List.filter_cons_of_pos hq, ih hsort.2, List.filter_cons_of_pos hq]
        by_cases hp : pred p = true
        · rw [if_pos hp, if_pos hp, insertDesc, if_neg hge]
        · rw [if_neg hp, if_neg hp]
      · rw [List.filter_cons_of_neg hq, ih hsort.2, List.filter_cons_of_neg hq]

lemma sortByNameDesc_filter (pred : Partition → Bool) (ps : List Partition) :
    sortByNameDesc (ps.filter pred) = (sortByNameDesc ps).filter pred := by
  induction ps with
  | nil => rfl
  | cons p qs ih =>
    show sortByNameDesc (List.filter pred (p :: qs)) = _
    rw [List.filter_cons]
    rw [show sortByNameDesc (p :: qs) = insertDesc p (sortByNameDesc qs) from rfl]
    rw [filter_insertDesc pred p _ (sortByNameDesc_sorted qs)]
    split
    · show insertDesc p (sortByNameDesc (qs.filter pred)) = _
      rw [ih]
    · exact ih

/-! ### The daily file name matches the glob pattern -/

lemma hasJsonlExt_daily (today : String) :
    hasJsonlExt (get_daily_log_file today) = true := by
  unfold hasJsonlExt get_daily_log_file
  rw [decide_eq_true_iff, String.data_append, List.reverse_append]
  rw [List.take_append_of_le_length (by decide)]
  decide

/-! ### Malformed lines are transparent to a query -/

/-- Keeps exactly the lines that do not fail to parse. -/
def notMalformed : Line → Bool
  | .malformed _ => false
  | _ => true

def dropMalformedPart (p : Partition) : Partition :=
  ⟨p.name, p.lines.filter notMalformed, p.readable⟩

/-- The same store with, in every partition, the lines that fail to parse
removed. -/
def dropMalformed (store : Store) : Store :=
  ⟨store.partitions.map dropMalformedPart⟩

lemma scanLines_filter_malformed (count : Int) (lf : Option String) (ls : List Line) :
    ∀ acc, scanLines count lf (ls.filter notMalformed) acc =
      scanLines count lf ls acc := by
  induction ls with
  | nil => intro acc; rfl
  | cons l rest ih =>
    intro acc
    cases l with
    | blank raw =>
      rw [List.filter_cons_of_pos rfl]
      simp only [scanLines]
      exact ih acc
    | malformed raw =>
      rw [List.filter_cons_of_neg (by simp [notMalformed])]
      simp only [scanLines]
      exact ih acc
    | valid entry =>
      rw [List.filter_cons_of_pos rfl]
      simp only [scanLines]
      cases hfs : filterSkip lf entry with
      | error e => simp [hfs]
      | ok b =>
        cases b with
        | true => simp only [hfs]; exact ih acc
        | false =>
          simp only [hfs]
          split
          · rfl
          · exact ih (acc ++ [entry])

lemma scanPartitions_dropMalformed (count : Int) (lf : Option String)
    (ps : List Partition) :
    ∀ acc, scanPartitions count lf (ps.map dropMalformedPart) acc =
      scanPartitions count lf ps acc := by
  induction ps with
  | nil => intro acc; rfl
  | cons p rest ih =>
    intro acc
    simp only [List.map_cons, scanPartitions, dropMalformedPart]
    have hsl : scanLines count lf (p.lines.filter notMalformed).reverse acc =
        scanLines count lf p.lines.reverse acc := by
      rw [← List.filter_reverse]
      exact scanLines_filter_malformed count lf p.lines.reverse acc
    by_cases hr : p.readable = true
    · rw [if_pos hr, if_pos hr, hsl]
      cases scanLines count lf p.lines.reverse acc with
      | returned entries => rfl
      | finished acc2 => exact ih acc2
      | raised => rfl
    · rw [if_neg hr, if_neg hr]
      exact ih acc

lemma globJsonl_map (f : Partition → Partition) (hf : ∀ p, (f p).name = p.name)
    (ps : List Partition) : globJsonl (ps.map f) = (globJsonl ps).map f := by
  unfold globJsonl
  induction ps with
  | nil => rfl
  | cons p rest ih =>
    simp only [List.map_cons, List.filter_cons, hf]
    by_cases hj : hasJsonlExt p.name = true
    · simp [hj, ih]
    · simp [hj, ih]

/-- C1: lines of a partition that fail to parse as a record (syntactically
invalid structured data or garbage text) are silently skipped by the query:
no error surfaces, the scan is not aborted, and the result is identical to
querying the same store with the bad lines removed, with no valid neighbouring
line skipped. -/
theorem c1_malformed_lines_transparent (store : Store) (count : Int)
    (level_filter : Option String) :
    read_recent_logs (dropMalformed store) count level_filter =
      read_recent_logs store count level_filter := by
  unfold read_recent_logs dropMalformed
  rw [globJsonl_map dropMalformedPart (fun p => rfl),
    sortByNameDesc_map dropMalformedPart (fun p => rfl),
    scanPartitions_dropMalformed]

/-! ### Unreadable partitions are skipped -/

/-- The same store with unreadable partition files removed. -/
def dropUnreadable (store : Store) : Store :=
  ⟨store.partitions.filter (fun p => p.readable)⟩

lemma scanPartitions_filter_readable (count : Int) (lf : Option String)
    (ps : List Partition) :
    ∀ acc, scanPartitions count lf (ps.filter (fun p => p.readable)) acc =
      scanPartitions count lf ps acc := by
  induction ps with
  | nil => intro acc; rfl
  | cons p rest ih =>
    intro acc
    by_cases hr : p.readable = true
    · rw [List.filter_cons_of_pos hr]
      simp only [scanPartitions]
      rw [if_pos hr, if_pos hr]
      cases scanLines count lf p.lines.reverse acc with
      | returned entries => rfl
      | finished acc2 => exact ih acc2
      | raised => rfl
    · rw [List.filter_cons_of_neg (by simpa using hr)]
      conv_rhs => rw [scanPartitions]
      rw [if_neg hr]
      exact ih acc

/-- C6: a partition file that cannot be opened or read is skipped entirely and
the scan proceeds with the next partition — the query result equals that on the
store with the unreadable files removed; and when no partition is readable the
query returns the empty result, not an error. -/
theorem c6_unreadable_skipped (store : Store) (count : Int)
    (level_filter : Option String) :
    read_recent_logs (dropUnreadable store) count level_filter =
      read_recent_logs store count level_filter ∧
    ((∀ p ∈ store.partitions, p.readable = false) →
      read_recent_logs store count level_filter = .ok []) := by
  have hglob : globJsonl (store.partitions.filter (fun p => p.readable)) =
      (globJsonl store.partitions).filter (fun p => p.readable) := by
    unfold globJsonl
    exact List.filter_comm _ _ _
  have hmain : read_recent_logs (dropUnreadable store) count level_filter =
      read_recent_logs store count level_filter := by
    unfold read_recent_logs dropUnreadable
    rw [hglob, sortByNameDesc_filter, scanPartitions_filter_readable]
  refine ⟨hmain, fun hall => ?_⟩
  have hempty : dropUnreadable store = ⟨[]⟩ := by
    unfold dropUnreadable
    congr 1
    rw [List.filter_eq_nil_iff]
    intro p hp
    simp [hall p hp]
  rw [← hmain, hempty]
  rfl

/-- Witness for C6 at a concrete store whose single partition is unreadable. -/
theorem c6_unreadable_skipped_witness :
    (∀ p ∈ (⟨[⟨"2024-01-01.jsonl", [.valid (.jstr "x")], false⟩]⟩ : Store).partitions,
      p.readable = false) ∧
    read_recent_logs ⟨[⟨"2024-01-01.jsonl", [.valid (.jstr "x")], false⟩]⟩ 5 none =
      .ok [] :=
  ⟨by simp, (c6_unreadable_skipped ⟨[⟨"2024-01-01.jsonl", [.valid (.jstr "x")], false⟩]⟩
    5 none).2 (by simp)⟩

/-! ### What it means to be kept by the scan -/

lemma effCount_of_pos (count : Int) (h : 1 ≤ count) :
    effCount count = count.toNat := by
  unfold effCount; split <;> omega

lemma effCount_natCast (n : Nat) (h : 1 ≤ n) : effCount (n : Int) = n := by
  unfold effCount; split <;> omega

lemma mem_keptEntries (lf : Option String) (ls : List Line) (e : Json)
    (h : e ∈ keptEntries lf ls) : filterSkip lf e = .ok false := by
  unfold keptEntries at h
  rw [List.mem_filterMap] at h
  obtain ⟨l, _, hfl⟩ := h
  cases l with
  | blank raw => simp at hfl
  | malformed raw => simp at hfl
  | valid j =>
    cases hfs : filterSkip lf j with
    | error u => simp [hfs] at hfl
    | ok b =>
      cases b with
      | true => simp [hfs] at hfl
      | false =>
        simp only [hfs, Option.some.injEq] at hfl
        subst hfl
        exact hfs

lemma mem_globalKept (store : Store) (lf : Option String) (e : Json)
    (h : e ∈ globalKept store lf) : filterSkip lf e = .ok false := by
  unfold globalKept at h
  rw [List.mem_flatten] at h
  obtain ⟨s, hs, hes⟩ := h
  rw [List.mem_map] at hs
  obtain ⟨p, _, hps⟩ := hs
  subst hps
  unfold partKept at hes
  split at hes
  · exact mem_keptEntries lf _ e hes
  · simp at hes

lemma filterSkip_level (L : String) (hL : L ≠ "") (e : Json)
    (h : filterSkip (some L) e = .ok false) :
    ∃ fields, e = .jobj fields ∧ dictGet fields "level" = some (.jstr L) := by
  simp only [filterSkip] at h
  rw [if_pos hL] at h
  cases e with
  | jobj fields =>
    refine ⟨fields, rfl, ?_⟩
    cases hd : dictGet fields "level" with
    | none => simp [entryLevelNe, hd] at h
    | some v =>
      cases v with
      | jstr s =>
        simp only [entryLevelNe, hd, Except.ok.injEq,
          decide_eq_false_iff_not, not_not] at h
        exact congrArg some (congrArg Json.jstr h)
      | jnull => simp [entryLevelNe, hd] at h
      | jbool b => simp [entryLevelNe, hd] at h
      | jnum n => simp [entryLevelNe, hd] at h
      | jarr xs => simp [entryLevelNe, hd] at h
      | jobj fs => simp [entryLevelNe, hd] at h
  | jnull => simp [entryLevelNe] at h
  | jbool b => simp [entryLevelNe] at h
  | jnum n => simp [entryLevelNe] at h
  | jstr s => simp [entryLevelNe] at h
  | jarr xs => simp [entryLevelNe] at h

/-- Concrete two-record store used by witnesses and counterexamples. -/
def wStore : Store :=
  ⟨[⟨"2024-01-01.jsonl",
    [.valid (mkLogEntry "T1" "info" "m1" []),
     .valid (mkLogEntry "T2" "warn" "m2" [])], true⟩]⟩

/-- C4 counterexample: an empty levelFilter string is falsy in Python, so
`Query(5, "")` performs no filtering at all — it returns a record whose level
field is the string "warn", which is not equal to the supplied filter "".  The
claim as stated therefore fails at L = "". -/
theorem c4_empty_filter_counterexample :
    read_recent_logs wStore 5 (some "") =
      .ok [mkLogEntry "T2" "warn" "m2" [], mkLogEntry "T1" "info" "m1" []] ∧
    dictGet [("timestamp", .jstr "T2Z"), ("level", .jstr "warn"),
      ("message", .jstr "m2"), ("context", .jobj [])] "level" =
      some (.jstr "warn") ∧
    ("warn" : String) ≠ "" :=
  ⟨rfl, rfl, by decide⟩

/-- C4 (amended to nonempty filter strings): when a nonempty level filter L is
supplied, every returned record is an object
whose level field is exactly the string L (case-sensitive), and the result is
exactly the first count-many L-leveled records in global scan order — the
filter applies during the scan, not to an already count-truncated window. -/
theorem c4_level_filter_exact (store : Store) (L : String) (count : Int)
    (es : List Json) (hL : L ≠ "") (hcount : 1 ≤ count)
    (h : read_recent_logs store count (some L) = .ok es) :
    (∀ e ∈ es, ∃ fields, e = .jobj fields ∧
      dictGet fields "level" = some (.jstr L)) ∧
    es = (globalKept store (some L)).take count.toNat := by
  have htake := read_recent_logs_take store count (some L) es h
  rw [effCount_of_pos count hcount] at htake
  refine ⟨?_, htake⟩
  intro e he
  rw [htake] at he
  have hmem : e ∈ globalKept store (some L) := List.take_subset _ _ he
  exact filterSkip_level L hL e (mem_globalKept store (some L) e hmem)

/-- Witness for C4: querying `wStore` with filter "info" returns exactly its
single info record. -/
theorem c4_level_filter_exact_witness :
    (("info" : String) ≠ "") ∧ ((1 : Int) ≤ 5) ∧
    ((∀ e ∈ [mkLogEntry "T1" "info" "m1" []], ∃ fields, e = .jobj fields ∧
        dictGet fields "level" = some (.jstr "info")) ∧
      [mkLogEntry "T1" "info" "m1" []] =
        (globalKept wStore (some "info")).take (5 : Int).toNat) :=
  ⟨by decide, by decide,
    c4_level_filter_exact wStore "info" 5 [mkLogEntry "T1" "info" "m1" []]
      (by decide) (by decide) rfl⟩

/-- C5: for any k ≥ 1 the query returns at most k records; it stops the whole
scan at exactly k records when at least k matches exist, and otherwise
(partitions exhausted first) returns everything collected, possibly nothing. -/
theorem c5_count_bound (store : Store) (count : Int) (lf : Option String)
    (es : List Json) (hcount : 1 ≤ count)
    (h : read_recent_logs store count lf = .ok es) :
    ((es.length : Int) ≤ count) ∧
    (count.toNat ≤ (globalKept store lf).length → (es.length : Int) = count) ∧
    ((globalKept store lf).length < count.toNat → es = globalKept store lf) := by
  have htake := read_recent_logs_take store count lf es h
  rw [effCount_of_pos count hcount] at htake
  have hlen : es.length = min count.toNat (globalKept store lf).length := by
    rw [htake, List.length_take]
  refine ⟨by omega, fun hge => by omega, fun hlt => ?_⟩
  rw [htake, List.take_of_length_le (by omega)]

/-- Witness for C5: querying `wStore` (two records) with count 1 returns one
record. -/
theorem c5_count_bound_witness :
    ((1 : Int) ≤ 1) ∧
    ((([mkLogEntry "T2" "warn" "m2" []] : List Json).length : Int) ≤ 1 ∧
      ((1 : Int).toNat ≤ (globalKept wStore none).length →
        (([mkLogEntry "T2" "warn" "m2" []] : List Json).length : Int) = 1) ∧
      ((globalKept wStore none).length < (1 : Int).toNat →
        [mkLogEntry "T2" "warn" "m2" []] = globalKept wStore none)) :=
  ⟨by decide,
    c5_count_bound wStore 1 none [mkLogEntry "T2" "warn" "m2" []] (by decide) rfl⟩

/-- C10: for count ≤ 0 the stop check `len(all_entries) >= count` only runs
after a record was appended, so a query over a store holding at least one
matching record returns exactly one record, never zero. -/
theorem c10_nonpositive_count_one (store : Store) (count : Int)
    (lf : Option String) (hc : count ≤ 0) :
    (∀ es, read_recent_logs store count lf = .ok es →
      es = (globalKept store lf).take 1) ∧
    (globalKept store none ≠ [] →
      ∃ e, read_recent_logs store count none = .ok [e]) := by
  have heff : effCount count = 1 := by unfold effCount; split <;> omega
  constructor
  · intro es h
    have := read_recent_logs_take store count lf es h
    rwa [heff] at this
  · intro hne
    obtain ⟨es, hes⟩ := read_none_ok store count
    have htake := read_recent_logs_take store count none es hes
    rw [heff] at htake
    cases hg : globalKept store none with
    | nil => exact absurd hg hne
    | cons a t =>
      refine ⟨a, ?_⟩
      rw [hes, htake, hg]
      rfl

/-- Witness for C10: querying `wStore` with count 0 returns one record. -/
theorem c10_nonpositive_count_one_witness :
    ((0 : Int) ≤ 0) ∧
    ((∀ es, read_recent_logs wStore 0 none = .ok es →
      es = (globalKept wStore none).take 1) ∧
    (globalKept wStore none ≠ [] →
      ∃ e, read_recent_logs wStore 0 none = .ok [e])) :=
  ⟨by decide, c10_nonpositive_count_one wStore 0 none (by decide)⟩

/-! ### A sequence of appends into one partition -/

/-- The per-call inputs of one `write_log_entry` call (the clock reading and
the three arguments; the context is given already JSON-serializable). -/
structure AppendInput where
  now_iso : String
  level : String
  message : String
  context : List (String × Json)
deriving Repr

/-- A context dict of JSON-serializable Python values. -/
def pyCtxOf (c : List (String × Json)) : List (String × PyVal) :=
  c.map (fun kv => (kv.1, PyVal.json kv.2))

/-- The record that one append stores, as read back by the query. -/
def entryOf (i : AppendInput) : Json :=
  mkLogEntry i.now_iso i.level i.message i.context

/-- Perform a list of appends in order, all on the same day. -/
def appendAll (today : String) : Store → List AppendInput → Store
  | store, [] => store
  | store, i :: rest =>
    appendAll today
      (write_log_entry store today i.now_iso i.level i.message
        (some (pyCtxOf i.context))).store rest

lemma serializeCtx_pyCtxOf (c : List (String × Json)) :
    serializeCtx (pyCtxOf c) = some c := by
  unfold pyCtxOf
  induction c with
  | nil => rfl
  | cons kv rest ih => simp [serializeCtx, ih]

lemma write_on_daily (today now_iso level message : String)
    (c : List (String × Json)) (ls : List Line) :
    write_log_entry ⟨[⟨get_daily_log_file today, ls, true⟩]⟩ today now_iso level
        message (some (pyCtxOf c)) =
      ⟨⟨[⟨get_daily_log_file today,
        ls ++ [.valid (mkLogEntry now_iso level message c)], true⟩]⟩, true⟩ := by
  unfold write_log_entry openAppend appendLine
  simp [serializeCtx_pyCtxOf]

lemma appendAll_daily (today : String) (ins : List AppendInput) :
    ∀ ls, appendAll today ⟨[⟨get_daily_log_file today, ls, true⟩]⟩ ins =
      ⟨[⟨get_daily_log_file today,
        ls ++ ins.map (fun i => Line.valid (entryOf i)), true⟩]⟩ := by
  induction ins with
  | nil => intro ls; simp [appendAll]
  | cons i rest ih =>
    intro ls
    rw [appendAll, write_on_daily]
    show appendAll today
      ⟨[⟨get_daily_log_file today,
        ls ++ [Line.valid (mkLogEntry i.now_iso i.level i.message i.context)],
        true⟩]⟩ rest = _
    rw [ih (ls ++ [Line.valid (mkLogEntry i.now_iso i.level i.message i.context)])]
    simp [entryOf]

lemma keptEntries_none_map (l : List AppendInput) :
    keptEntries none (l.map (fun i => Line.valid (entryOf i))) = l.map entryOf := by
  induction l with
  | nil => rfl
  | cons i rest ih =>
    simp only [List.map_cons, keptEntries, List.filterMap_cons] at ih ⊢
    rw [show filterSkip none (entryOf i) = .ok false from rfl]
    rw [ih]

/-- C3: the query result is always an initial segment of the global
newest-physical-write-first order (partitions in descending name order, lines
of each partition in reverse physical order — append order, never a sort by
the timestamp field); in particular, N appends e1..eN made in order into one
partition and queried with count N come back as eN, ..., e1. -/
theorem c3_newest_first_order :
    (∀ (store : Store) (count : Int) (lf : Option String) (es : List Json),
      read_recent_logs store count lf = .ok es →
        ∃ t, globalKept store lf = es ++ t) ∧
    (∀ (today : String) (ins : List AppendInput),
      read_recent_logs (appendAll today ⟨[]⟩ ins) (ins.length : Int) none =
        .ok ((ins.map entryOf).reverse)) := by
  constructor
  · intro store count lf es h
    have htake := read_recent_logs_take store count lf es h
    exact ⟨(globalKept store lf).drop (effCount count),
      by rw [htake, List.take_append_drop]⟩
  · intro today ins
    cases ins with
    | nil => rfl
    | cons i rest =>
      have hw : write_log_entry ⟨[]⟩ today i.now_iso i.level i.message
          (some (pyCtxOf i.context)) =
          ⟨⟨[⟨get_daily_log_file today, [.valid (entryOf i)], true⟩]⟩, true⟩ := by
        unfold write_log_entry openAppend appendLine
        simp [serializeCtx_pyCtxOf, entryOf]
      have hstore : appendAll today ⟨[]⟩ (i :: rest) =
          ⟨[⟨get_daily_log_file today,
            (i :: rest).map (fun j => Line.valid (entryOf j)), true⟩]⟩ := by
        rw [appendAll, hw]
        show appendAll today
          ⟨[⟨get_daily_log_file today, [.valid (entryOf i)], true⟩]⟩ rest = _
        rw [appendAll_daily today rest [.valid (entryOf i)]]
        simp
      rw [hstore]
      have hg : globalKept
          ⟨[⟨get_daily_log_file today,
            (i :: rest).map (fun j => Line.valid (entryOf j)), true⟩]⟩ none =
          ((i :: rest).map entryOf).reverse := by
        unfold globalKept
        rw [show globJsonl [⟨get_daily_log_file today,
            (i :: rest).map (fun j => Line.valid (entryOf j)), true⟩] =
          [⟨get_daily_log_file today,
            (i :: rest).map (fun j => Line.valid (entryOf j)), true⟩] from by
          simp [globJsonl, List.filter_cons, hasJsonlExt_daily]]
        show (partKept none ⟨get_daily_log_file today,
          (i :: rest).map (fun j => Line.valid (entryOf j)), true⟩) ++ [].flatten =
          ((i :: rest).map entryOf).reverse
        rw [partKept, if_pos rfl]
        show keptEntries none ((i :: rest).map (fun j => Line.valid (entryOf j))).reverse
          ++ [] = ((i :: rest).map entryOf).reverse
        rw [List.append_nil, ← List.map_reverse, keptEntries_none_map,
          List.map_reverse]
      obtain ⟨es, hes⟩ := read_none_ok
        ⟨[⟨get_daily_log_file today,
          (i :: rest).map (fun j => Line.valid (entryOf j)), true⟩]⟩
        (((i :: rest).length : Nat) : Int)
      have htake := read_recent_logs_take _ _ none es hes
      rw [hg, effCount_natCast _ (by simp)] at htake
      rw [List.take_of_length_le (by simp)] at htake
      rw [hes, htake]

/-- Witness for C3: two appends on one day come back newest first, and a
successful query on `wStore` is an initial segment of its global order. -/
theorem c3_newest_first_order_witness :
    (∃ t, globalKept wStore none =
      [mkLogEntry "T2" "warn" "m2" [], mkLogEntry "T1" "info" "m1" []] ++ t) ∧
    read_recent_logs
        (appendAll "2024-01-01" ⟨[]⟩
          [⟨"T1", "info", "m1", []⟩, ⟨"T2", "warn", "m2", []⟩]) 2 none =
      .ok [mkLogEntry "T2" "warn" "m2" [], mkLogEntry "T1" "info" "m1" []] :=
  ⟨c3_newest_first_order.1 wStore 5 none
      [mkLogEntry "T2" "warn" "m2" [], mkLogEntry "T1" "info" "m1" []] rfl,
    c3_newest_first_order.2 "2024-01-01"
      [⟨"T1", "info", "m1", []⟩, ⟨"T2", "warn", "m2", []⟩]⟩

/-! ### Write-path frame lemmas -/

lemma contentOf_openAppend (store : Store) (name n : String) :
    contentOf (openAppend store name) n = contentOf store n := by
  unfold openAppend
  split
  · rfl
  · unfold contentOf
    simp only [List.find?_append]
    cases hf : store.partitions.find? (fun p => p.name == n) with
    | some p => simp [hf]
    | none =>
      simp only [hf, Option.none_or]
      by_cases he : (name == n) = true
      · simp [List.find?_cons, he]
      · simp [List.find?_cons, he]

lemma mem_openAppend (store : Store) (name : String) (q : Partition)
    (hq : q ∈ (openAppend store name).partitions) :
    q ∈ store.partitions ∨ q.name = name := by
  unfold openAppend at hq
  split at hq
  · exact Or.inl hq
  · rcases List.mem_append.mp hq with h | h
    · exact Or.inl h
    · simp only [List.mem_singleton] at h
      subst h
      exact Or.inr rfl

lemma openAppend_has_name (store : Store) (name : String) :
    ∃ p ∈ (openAppend store name).partitions, p.name = name ∧
      (p ∈ store.partitions ∨ p = ⟨name, [], true⟩) := by
  unfold openAppend
  split
  · rename_i hany
    rw [List.any_eq_true] at hany
    obtain ⟨p, hp, hb⟩ := hany
    exact ⟨p, hp, eq_of_beq hb, Or.inl hp⟩
  · refine ⟨⟨name, [], true⟩, ?_, rfl, Or.inr rfl⟩
    simp

lemma find?_appendLine (name n : String) (l : Line) (ps : List Partition) :
    (ps.map (fun p => if p.name == name then
        (⟨p.name, p.lines ++ [l], p.readable⟩ : Partition) else p)).find?
      (fun p => p.name == n) =
    (ps.find? (fun p => p.name == n)).map (fun p => if p.name == name then
      (⟨p.name, p.lines ++ [l], p.readable⟩ : Partition) else p) := by
  induction ps with
  | nil => rfl
  | cons q qs ih =>
    have hname : (if (q.name == name) = true then
        (⟨q.name, q.lines ++ [l], q.readable⟩ : Partition) else q).name = q.name := by
      split <;> rfl
    rw [List.map_cons, List.find?_cons, List.find?_cons, hname]
    cases hqn : (q.name == n) with
    | true => rfl
    | false => rw [ih]

lemma contentOf_appendLine_self (store : Store) (name : String) (l : Line)
    (h : ∃ p ∈ store.partitions, p.name = name) :
    contentOf (appendLine store name l) name = contentOf store name ++ [l] := by
  unfold contentOf appendLine
  rw [find?_appendLine]
  have hsome : (store.partitions.find? (fun p => p.name == name)).isSome := by
    rw [List.find?_isSome]
    obtain ⟨p, hp, hn⟩ := h
    exact ⟨p, hp, beq_iff_eq.mpr hn⟩
  obtain ⟨p, hp⟩ := Option.isSome_iff_exists.mp hsome
  have hpn := List.find?_some hp
  rw [hp]
  simp only at hpn
  simp
  rw [if_pos (eq_of_beq hpn)]

lemma contentOf_appendLine_other (store : Store) (name n : String) (l : Line)
    (hne : n ≠ name) :
    contentOf (appendLine store name l) n = contentOf store n := by
  unfold contentOf appendLine
  rw [find?_appendLine]
  cases hf : store.partitions.find? (fun p => p.name == n) with
  | none => rfl
  | some p =>
    have hpn := List.find?_some hf
    simp only at hpn
    have hpname : p.name ≠ name := by
      rw [eq_of_beq hpn]
      exact hne
    simp
    rw [if_neg hpname]

lemma appendLine_mem (store : Store) (l : Line)
    (p : Partition) (hp : p ∈ store.partitions) :
    (⟨p.name, p.lines ++ [l], p.readable⟩ : Partition) ∈
      (appendLine store p.name l).partitions := by
  unfold appendLine
  have hfp : (⟨p.name, p.lines ++ [l], p.readable⟩ : Partition) =
      (fun q => if q.name == p.name then
        (⟨q.name, q.lines ++ [l], q.readable⟩ : Partition) else q) p := by
    simp
  rw [hfp]
  exact List.mem_map_of_mem _ hp

lemma mem_appendLine (store : Store) (name : String) (l : Line) (p : Partition)
    (hp : p ∈ (appendLine store name l).partitions) :
    p.name = name ∨ p ∈ store.partitions := by
  unfold appendLine at hp
  rw [List.mem_map] at hp
  obtain ⟨q, hq, hfq⟩ := hp
  by_cases hqn : (q.name == name) = true
  · rw [if_pos hqn] at hfq
    left
    rw [← hfq]
    exact eq_of_beq hqn
  · rw [if_neg hqn] at hfq
    right
    rw [← hfq]
    exact hq

/-- C7: a successful append only extends the current partition file — it adds
exactly one serialized record line at its end (creating combined content from
an empty file when absent) and leaves the content of every other partition,
and all previously written lines of the current one, byte-for-byte unchanged:
nothing is truncated, rewritten or reordered. -/
theorem c7_append_extends_only (store : Store)
    (today now_iso level message : String)
    (context : Option (List (String × PyVal)))
    (hok : (write_log_entry store today now_iso level message context).ok
      = true) :
    ∃ ctxJson, serializeCtx (context.getD []) = some ctxJson ∧
      contentOf (write_log_entry store today now_iso level message context).store
          (get_daily_log_file today) =
        contentOf store (get_daily_log_file today) ++
          [Line.valid (mkLogEntry now_iso level message ctxJson)] ∧
      (∀ n, n ≠ get_daily_log_file today →
        contentOf (write_log_entry store today now_iso level message
            context).store n =
          contentOf store n) ∧
      (∀ p ∈ (write_log_entry store today now_iso level message
          context).store.partitions,
        p.name = get_daily_log_file today ∨ p ∈ store.partitions) := by
  cases hser : serializeCtx (context.getD []) with
  | none =>
    exfalso
    simp [write_log_entry, hser] at hok
  | some ctxJson =>
    have hw : (write_log_entry store today now_iso level message context).store =
        appendLine (openAppend store (get_daily_log_file today))
          (get_daily_log_file today)
          (Line.valid (mkLogEntry now_iso level message ctxJson)) := by
      simp [write_log_entry, hser]
    refine ⟨ctxJson, rfl, ?_, ?_, ?_⟩
    · rw [hw]
      rw [contentOf_appendLine_self _ _ _ (by
        obtain ⟨p, hp, hn, _⟩ := openAppend_has_name store (get_daily_log_file today)
        exact ⟨p, hp, hn⟩)]
      rw [contentOf_openAppend]
    · intro n hn
      rw [hw, contentOf_appendLine_other _ _ _ _ hn, contentOf_openAppend]
    · intro p hp
      rw [hw] at hp
      rcases mem_appendLine _ _ _ p hp with h | h
      · exact Or.inl h
      · rcases mem_openAppend _ _ p h with h2 | h2
        · exact Or.inr h2
        · exact Or.inl h2

/-- Witness for C7 at a concrete store, with an omitted context. -/
theorem c7_append_extends_only_witness :
    (write_log_entry wStore "2024-01-02" "T3" "info" "m3" none).ok = true ∧
    (∃ ctxJson, serializeCtx ((none : Option (List (String × PyVal))).getD [])
        = some ctxJson ∧
      contentOf (write_log_entry wStore "2024-01-02" "T3" "info" "m3" none).store
          (get_daily_log_file "2024-01-02") =
        contentOf wStore (get_daily_log_file "2024-01-02") ++
          [Line.valid (mkLogEntry "T3" "info" "m3" ctxJson)] ∧
      (∀ n, n ≠ get_daily_log_file "2024-01-02" →
        contentOf (write_log_entry wStore "2024-01-02" "T3" "info" "m3"
            none).store n =
          contentOf wStore n) ∧
      (∀ p ∈ (write_log_entry wStore "2024-01-02" "T3" "info" "m3"
          none).store.partitions,
        p.name = get_daily_log_file "2024-01-02" ∨ p ∈ wStore.partitions)) :=
  ⟨rfl, c7_append_extends_only wStore "2024-01-02" "T3" "info" "m3" none rfl⟩

/-- C8: any level string, including strings outside the enumeration
debug/info/warn/error, is stored verbatim in the level field of the appended
record; the append succeeds and no other partition content is altered. -/
theorem c8_level_stored_verbatim (store : Store)
    (today now_iso level message : String) (ctx : List (String × Json)) :
    (write_log_entry store today now_iso level message
      (some (pyCtxOf ctx))).ok = true ∧
    contentOf (write_log_entry store today now_iso level message
        (some (pyCtxOf ctx))).store (get_daily_log_file today) =
      contentOf store (get_daily_log_file today) ++
        [Line.valid (mkLogEntry now_iso level message ctx)] ∧
    (∃ fields, mkLogEntry now_iso level message ctx = .jobj fields ∧
      dictGet fields "level" = some (.jstr level)) ∧
    (∀ n, n ≠ get_daily_log_file today →
      contentOf (write_log_entry store today now_iso level message
          (some (pyCtxOf ctx))).store n =
        contentOf store n) := by
  have hser : serializeCtx (pyCtxOf ctx) = some ctx := serializeCtx_pyCtxOf ctx
  have hw : (write_log_entry store today now_iso level message
      (some (pyCtxOf ctx))).store =
      appendLine (openAppend store (get_daily_log_file today))
        (get_daily_log_file today)
        (Line.valid (mkLogEntry now_iso level message ctx)) := by
    simp [write_log_entry, hser]
  refine ⟨by simp [write_log_entry, hser], ?_, ?_, ?_⟩
  · rw [hw]
    rw [contentOf_appendLine_self _ _ _ (by
      obtain ⟨p, hp, hn, _⟩ := openAppend_has_name store (get_daily_log_file today)
      exact ⟨p, hp, hn⟩)]
    rw [contentOf_openAppend]
  · exact ⟨_, rfl, rfl⟩
  · intro n hn
    rw [hw, contentOf_appendLine_other _ _ _ _ hn, contentOf_openAppend]

/-- C9: when the supplied context is not JSON-serializable, `json.dumps`
raises before any byte is written — the append fails and the content of every
partition file is exactly unchanged. -/
theorem c9_serialization_failure_atomic (store : Store)
    (today now_iso level message : String)
    (context : Option (List (String × PyVal)))
    (hbad : serializeCtx (context.getD []) = none) :
    (write_log_entry store today now_iso level message context).ok = false ∧
    ∀ n, contentOf (write_log_entry store today now_iso level message
        context).store n =
      contentOf store n := by
  have hw : write_log_entry store today now_iso level message context =
      ⟨openAppend store (get_daily_log_file today), false⟩ := by
    simp [write_log_entry, hbad]
  rw [hw]
  exact ⟨rfl, fun n => contentOf_openAppend store (get_daily_log_file today) n⟩

/-- Witness for C9: a context holding a non-serializable value. -/
theorem c9_serialization_failure_atomic_witness :
    serializeCtx ((some [("k", PyVal.unserializable "set")] :
        Option (List (String × PyVal))).getD []) = none ∧
    ((write_log_entry wStore "2024-01-01" "T9" "info" "m9"
        (some [("k", PyVal.unserializable "set")])).ok = false ∧
      ∀ n, contentOf (write_log_entry wStore "2024-01-01" "T9" "info" "m9"
          (some [("k", PyVal.unserializable "set")])).store n =
        contentOf wStore n) :=
  ⟨rfl, c9_serialization_failure_atomic wStore "2024-01-01" "T9" "info" "m9"
    (some [("k", PyVal.unserializable "set")]) rfl⟩

/-! ### Append/Query round trip -/

lemma mem_globalKept_of_partition (store : Store) (p : Partition)
    (hp : p ∈ store.partitions) (hjsonl : hasJsonlExt p.name = true)
    (hread : p.readable = true) (e : Json)
    (he : e ∈ keptEntries none p.lines.reverse) :
    e ∈ globalKept store none := by
  unfold globalKept
  rw [List.mem_flatten]
  refine ⟨keptEntries none p.lines.reverse, ?_, he⟩
  have hp1 : p ∈ globJsonl store.partitions :=
    List.mem_filter.mpr ⟨hp, hjsonl⟩
  have hp2 : p ∈ sortByNameDesc (globJsonl store.partitions) :=
    (mem_sortByNameDesc p _).mpr hp1
  have : partKept none p = keptEntries none p.lines.reverse := by
    unfold partKept
    rw [if_pos hread]
  rw [← this]
  exact List.mem_map_of_mem _ hp2

/-- C2: after a successful append of (level, message, context), a query with
sufficiently large count and no level filter returns a record whose level,
message and context fields are exactly the appended values, the context being
the empty mapping when it was omitted. -/
theorem c2_append_query_round_trip (store : Store)
    (today now_iso level message : String)
    (context : Option (List (String × Json)))
    (hr : ∀ p ∈ store.partitions, p.name = get_daily_log_file today →
      p.readable = true)
    (count : Int)
    (hcount : ((globalKept (write_log_entry store today now_iso level message
        (context.map pyCtxOf)).store none).length : Int) < count) :
    (write_log_entry store today now_iso level message
        (context.map pyCtxOf)).ok = true ∧
    ∃ es, read_recent_logs (write_log_entry store today now_iso level message
        (context.map pyCtxOf)).store count none = .ok es ∧
      mkLogEntry now_iso level message (context.getD []) ∈ es := by
  have hser : serializeCtx ((context.map pyCtxOf).getD []) =
      some (context.getD []) := by
    cases context with
    | none => rfl
    | some c => simpa using serializeCtx_pyCtxOf c
  have hw : (write_log_entry store today now_iso level message
      (context.map pyCtxOf)).store =
      appendLine (openAppend store (get_daily_log_file today))
        (get_daily_log_file today)
        (Line.valid (mkLogEntry now_iso level message (context.getD []))) := by
    simp [write_log_entry, hser]
  have hok : (write_log_entry store today now_iso level message
      (context.map pyCtxOf)).ok = true := by
    simp [write_log_entry, hser]
  refine ⟨hok, ?_⟩
  -- locate the record in the written store
  obtain ⟨p0, hp0, hn0, hcase⟩ :=
    openAppend_has_name store (get_daily_log_file today)
  have hread : p0.readable = true := by
    rcases hcase with h | h
    · exact hr p0 h hn0
    · rw [h]
  have hmemP : (⟨get_daily_log_file today, p0.lines ++
      [Line.valid (mkLogEntry now_iso level message (context.getD []))],
      p0.readable⟩ : Partition) ∈
      (write_log_entry store today now_iso level message
        (context.map pyCtxOf)).store.partitions := by
    rw [hw]
    have := appendLine_mem (openAppend store (get_daily_log_file today))
      (Line.valid (mkLogEntry now_iso level message (context.getD []))) p0 hp0
    rwa [hn0] at this
  have hkept : mkLogEntry now_iso level message (context.getD []) ∈
      keptEntries none (p0.lines ++
        [Line.valid (mkLogEntry now_iso level message (context.getD []))]).reverse := by
    rw [List.reverse_append]
    show _ ∈ keptEntries none
      (Line.valid (mkLogEntry now_iso level message (context.getD [])) ::
        p0.lines.reverse)
    rw [keptEntries_valid_false none _ _ rfl]
    exact List.mem_cons_self _ _
  have hmem : mkLogEntry now_iso level message (context.getD []) ∈
      globalKept (write_log_entry store today now_iso level message
        (context.map pyCtxOf)).store none := by
    exact mem_globalKept_of_partition _ _ hmemP (hasJsonlExt_daily today)
      hread _ hkept
  obtain ⟨es, hes⟩ := read_none_ok
    (write_log_entry store today now_iso level message
      (context.map pyCtxOf)).store count
  have htake := read_recent_logs_take _ count none es hes
  have hlen1 : 1 ≤ (globalKept (write_log_entry store today now_iso level
      message (context.map pyCtxOf)).store none).length :=
    List.length_pos.mpr (List.ne_nil_of_mem hmem)
  have heff : (globalKept (write_log_entry store today now_iso level message
      (context.map pyCtxOf)).store none).length ≤ effCount count := by
    unfold effCount
    split <;> omega
  rw [List.take_of_length_le heff] at htake
  exact ⟨es, hes, htake ▸ hmem⟩

/-- Witness for C2 on the empty store with an omitted context. -/
theorem c2_append_query_round_trip_witness :
    (∀ p ∈ (⟨[]⟩ : Store).partitions, p.name = get_daily_log_file "2024-01-03" →
      p.readable = true) ∧
    ((globalKept (write_log_entry ⟨[]⟩ "2024-01-03" "T" "info" "m"
        ((none : Option (List (String × Json))).map pyCtxOf)).store
      none).length : Int) < 3 ∧
    ((write_log_entry ⟨[]⟩ "2024-01-03" "T" "info" "m"
        ((none : Option (List (String × Json))).map pyCtxOf)).ok = true ∧
      ∃ es, read_recent_logs (write_log_entry ⟨[]⟩ "2024-01-03" "T" "info" "m"
          ((none : Option (List (String × Json))).map pyCtxOf)).store 3 none =
        .ok es ∧
        mkLogEntry "T" "info" "m"
          ((none : Option (List (String × Json))).getD []) ∈ es) :=
  ⟨by simp, by decide,
    c2_append_query_round_trip ⟨[]⟩ "2024-01-03" "T" "info" "m" none
      (by simp) 3 (by decide)⟩
